import Mathlib

/-!
Verification of the `neat` file-organization utility.

This file gives a shallow embedding of the core data model and algorithms of
the repository and proves properties of them:

* the extension classifier (`src/classifier.rs`),
* the duplicate-detection engine (`src/core/duplicates.rs`),
* the move planner and execution engine (`src/organizer.rs`),
* the operation history / undo log (`src/utils/logger.rs`, `src/main.rs`).

Filesystem paths are modelled as lists of components, file contents as lists
of bytes, and the mutable filesystem as an explicit `World` state threaded
through the execution functions.  Fallible operations return `Except`/`Option`.
External hash functions (xxh3) are parameters of the embedding, so theorems
about the duplicate engine hold for every choice of fingerprint function.
-/

namespace Neat

/-- A filesystem path, as its list of components (the embedding of `PathBuf`). -/
abbrev Path : Type := List String

/-- File contents, as a list of bytes. -/
abbrev Content : Type := List Nat

/-- A read-only view of file contents: `none` models an unreadable file. -/
abbrev FileSys : Type := Path → Option Content

/-! ## Lowercasing

Rust's `str::to_lowercase` maps each character to its lowercase form.  We model
it as a character-by-character map over the string data (Lean's own
`String.toLower` is the same function, by `String.map_eq`, but is defined by
well-founded recursion and therefore does not reduce in the kernel). -/

/-- Character-wise lowercasing, the embedding of `str::to_lowercase`. -/
def toLowerStr (s : String) : String := ⟨s.data.map Char.toLower⟩

theorem char_toLower_eq (c : Char) :
    Char.toLower c =
      if 65 ≤ c.toNat ∧ c.toNat ≤ 90 then Char.ofNat (c.toNat + 32) else c :=
  rfl

theorem char_toNat_ofNat_of_valid (n : Nat) (h : n.isValidChar) :
    (Char.ofNat n).toNat = n := by
  simp only [Char.ofNat, dif_pos h, Char.ofNatAux, Char.toNat, UInt32.toNat]
  simp

theorem char_toLower_toNat (c : Char) :
    (Char.toLower c).toNat =
      if 65 ≤ c.toNat ∧ c.toNat ≤ 90 then c.toNat + 32 else c.toNat := by
  by_cases h : 65 ≤ c.toNat ∧ c.toNat ≤ 90
  · rw [char_toLower_eq, if_pos h, if_pos h,
      char_toNat_ofNat_of_valid _ (Or.inl (by omega))]
  · rw [char_toLower_eq, if_neg h, if_neg h]

theorem char_toLower_idem (c : Char) :
    Char.toLower (Char.toLower c) = Char.toLower c := by
  have hd : ¬ (65 ≤ (Char.toLower c).toNat ∧ (Char.toLower c).toNat ≤ 90) := by
    rw [char_toLower_toNat]
    split <;> omega
  rw [char_toLower_eq (Char.toLower c), if_neg hd]

theorem toLowerStr_idem (s : String) :
    toLowerStr (toLowerStr s) = toLowerStr s := by
  simp only [toLowerStr, List.map_map]
  exact congrArg _ (List.map_congr_left fun a _ => char_toLower_idem a)

/-! ## Classifier (`src/classifier.rs`) -/

/-- File category (`Category` in `src/classifier.rs`). -/
inductive Category where
  | Images
  | Documents
  | Videos
  | Audio
  | Archives
  | Code
  | Data
  | Other
  deriving Repr, DecidableEq

/-- `Category::folder_name`. -/
def Category.folder_name : Category → String
  | .Images => "Images"
  | .Documents => "Documents"
  | .Videos => "Videos"
  | .Audio => "Audio"
  | .Archives => "Archives"
  | .Code => "Code"
  | .Data => "Data"
  | .Other => "Other"

set_option maxHeartbeats 1000000 in
/-- The static extension table built by `Classifier::new` (insertion order
preserved; all keys are distinct, so association-list lookup models the
`HashMap`). -/
def extension_map : List (String × Category) :=
  [("jpg", Category.Images), ("jpeg", Category.Images), ("png", Category.Images), ("gif", Category.Images),
   ("bmp", Category.Images), ("svg", Category.Images), ("webp", Category.Images), ("ico", Category.Images),
   ("tiff", Category.Images), ("heic", Category.Images), ("raw", Category.Images),
   ("pdf", Category.Documents), ("doc", Category.Documents), ("docx", Category.Documents),
   ("txt", Category.Documents), ("rtf", Category.Documents), ("odt", Category.Documents),
   ("xls", Category.Documents), ("xlsx", Category.Documents), ("ppt", Category.Documents),
   ("pptx", Category.Documents), ("csv", Category.Documents), ("md", Category.Documents),
   ("epub", Category.Documents),
   ("mp4", Category.Videos), ("avi", Category.Videos), ("mov", Category.Videos), ("mkv", Category.Videos),
   ("wmv", Category.Videos), ("flv", Category.Videos), ("webm", Category.Videos), ("m4v", Category.Videos),
   ("mpeg", Category.Videos), ("mpg", Category.Videos),
   ("mp3", Category.Audio), ("wav", Category.Audio), ("flac", Category.Audio), ("aac", Category.Audio),
   ("ogg", Category.Audio), ("wma", Category.Audio), ("m4a", Category.Audio), ("opus", Category.Audio),
   ("zip", Category.Archives), ("tar", Category.Archives), ("gz", Category.Archives),
   ("rar", Category.Archives), ("7z", Category.Archives), ("bz2", Category.Archives),
   ("xz", Category.Archives), ("tgz", Category.Archives), ("dmg", Category.Archives),
   ("iso", Category.Archives),
   ("rs", Category.Code), ("py", Category.Code), ("js", Category.Code), ("ts", Category.Code), ("go", Category.Code),
   ("java", Category.Code), ("c", Category.Code), ("cpp", Category.Code), ("h", Category.Code),
   ("hpp", Category.Code), ("cs", Category.Code), ("rb", Category.Code), ("php", Category.Code),
   ("swift", Category.Code), ("kt", Category.Code), ("scala", Category.Code), ("html", Category.Code),
   ("css", Category.Code), ("scss", Category.Code), ("vue", Category.Code), ("jsx", Category.Code),
   ("tsx", Category.Code), ("sh", Category.Code), ("bash", Category.Code), ("zsh", Category.Code),
   ("fish", Category.Code),
   ("json", Category.Data), ("xml", Category.Data), ("yaml", Category.Data), ("yml", Category.Data),
   ("toml", Category.Data), ("sql", Category.Data), ("db", Category.Data), ("sqlite", Category.Data)]

/-- Association-list lookup, modelling `HashMap::get` on the table above. -/
def lookupExt : List (String × Category) → String → Option Category
  | [], _ => none
  | (k, v) :: rest, e => if k = e then some v else lookupExt rest e

/-- `Classifier::classify`: lowercase the extension, look it up, default to
`Other`; an absent extension is `Other`. -/
def classify (extOpt : Option String) : Category :=
  match extOpt with
  | some e => (lookupExt extension_map (toLowerStr e)).getD Category.Other
  | none => Category.Other

/-- Claim C8: `classify` is a pure function of the lowercased extension:
`classify (some e)` equals `classify` of the lowercased `e` for every string
`e`; the absent extension maps to `Other`; and any extension whose lowercase
form is not in the table maps to `Other`. -/
theorem classify_case_insensitive_unknown_other :
    (∀ e : String, classify (some e) = classify (some (toLowerStr e))) ∧
    classify none = Category.Other ∧
    (∀ e : String, lookupExt extension_map (toLowerStr e) = none →
      classify (some e) = Category.Other) := by
  refine ⟨fun e => ?_, rfl, fun e h => ?_⟩
  · simp only [classify, toLowerStr_idem]
  · simp only [classify, h, Option.getD_none]

/-- Concrete instances of claim C8: `classify "JPG" = classify "jpg"` (both
`Images`), and the unknown extension `xyz` classifies as `Other`. -/
theorem classify_case_insensitive_unknown_other_witness :
    classify (some "JPG") = classify (some (toLowerStr "JPG")) ∧
    classify (some "xyz") = Category.Other ∧
    classify (some "JPG") = Category.Images := by
  refine ⟨classify_case_insensitive_unknown_other.1 "JPG",
    classify_case_insensitive_unknown_other.2.2 "xyz" (by decide), by decide⟩

/-! ## Duplicate engine (`src/core/duplicates.rs`)

The engine is parameterized by the fingerprint function `h` (modelling
`xxh3_64`): every theorem below holds for an arbitrary `h`, so no property
depends on the fingerprint being collision-free. -/

/-- `FileInfo` from `src/scanner.rs` (the fields the engines read). -/
structure FileInfo where
  path : Path
  name : String
  extension : Option String
  size : Nat
  modified : Nat
  deriving Repr, DecidableEq

/-- `DuplicateGroup`; `hash` is the display fingerprint (`none` models the
`"unknown"` fallback of a failed read). -/
structure DuplicateGroup where
  hash : Option Nat
  files : List FileInfo
  size : Nat
  deriving Repr, DecidableEq

/-- `DuplicateGroup::wasted_space`. -/
def DuplicateGroup.wasted_space (g : DuplicateGroup) : Nat :=
  if g.files.length > 1 then g.size * (g.files.length - 1) else 0

/-- `MMAP_THRESHOLD` (64 KB): files larger than this are memory-mapped; both
branches read the same bytes, so the threshold is irrelevant to contents. -/
def MMAP_THRESHOLD : Nat := 64 * 1024

/-- `COMPARE_CHUNK_SIZE` (64 KB). -/
def COMPARE_CHUNK_SIZE : Nat := 64 * 1024

/-- `quick_hash_4kb`: fingerprint of the first `min 4096 size` bytes paired
with the metadata size (the source formats these as the string
`"hash_size"`; hash and size are recoverable from it, so the pair is the
same grouping key).  `none` models a read error. -/
def quick_hash_4kb (h : Content → Nat) (fs : FileSys) (p : Path) :
    Option (Nat × Nat) :=
  match fs p with
  | none => none
  | some c =>
    let size := c.length
    let chunk_size := min 4096 size
    some (h (c.take chunk_size), size)

/-- `quick_hash` (display only): whole content for small files, first 64 KB
for files above `MMAP_THRESHOLD`. -/
def quick_hash (h : Content → Nat) (fs : FileSys) (p : Path) : Option Nat :=
  match fs p with
  | none => none
  | some c =>
    if c.length ≤ MMAP_THRESHOLD then some (h c)
    else some (h (c.take (min COMPARE_CHUNK_SIZE c.length)))

/-- `files_are_equal`: direct byte-for-byte comparison.  Different sizes are
unequal; empty files are equal; otherwise the contents are compared byte by
byte (the mmap branch and the 64 KB-chunk loop both compare exactly the two
contents). `none` models a file that cannot be opened. -/
def files_are_equal (fs : FileSys) (p1 p2 : Path) : Option Bool :=
  match fs p1, fs p2 with
  | some c1, some c2 =>
    if c1.length ≠ c2.length then some false
    else if c1.length = 0 then some true
    else some (decide (c1 = c2))
  | _, _ => none

/-- Insert a file under its key, extending the key's group (the embedding of
`HashMap::entry(k).or_default().push(f)`). -/
def insertKeyed {κ : Type} [DecidableEq κ] (k : κ) (f : FileInfo) :
    List (κ × List FileInfo) → List (κ × List FileInfo)
  | [] => [(k, [f])]
  | (q, g) :: rest =>
    if k = q then (q, g ++ [f]) :: rest else (q, g) :: insertKeyed k f rest

/-- Group files by a key, skipping files whose key is `none` (the embedding of
the `HashMap`-accumulation loops; the map's iteration order is irrelevant to
every property proved below, which only depends on group membership). -/
def groupByKey {κ : Type} [DecidableEq κ] (key : FileInfo → Option κ)
    (files : List FileInfo) : List (κ × List FileInfo) :=
  files.foldl
    (fun acc f => match key f with | some k => insertKeyed k f acc | none => acc)
    []

/-- The greedy clustering of the `files.len() > 2` branch of
`find_duplicates_in_group`: the first unprocessed file seeds a cluster of all
later files byte-equal to it; a seed with no partner is dropped.  (The source
walks indices with a `processed` set; partitioning the tail by equality with
the seed visits exactly the same pairs.) -/
def greedyGroups (fs : FileSys) : List FileInfo → List (List FileInfo)
  | [] => []
  | f :: rest =>
    let eqs := rest.filter (fun g => (files_are_equal fs f.path g.path).getD false)
    let neqs := rest.filter (fun g => !(files_are_equal fs f.path g.path).getD false)
    if eqs.isEmpty then greedyGroups fs neqs
    else (f :: eqs) :: greedyGroups fs neqs
  termination_by l => l.length
  decreasing_by
    simp only [List.length_cons]
    exact Nat.lt_succ_of_le (List.length_filter_le _ rest)

/-- `find_duplicates_in_group`: verified duplicate groups within one
fingerprint-collision group.  The source branches on `files.len()`:
fewer than two files yield nothing, exactly two files are compared
directly, and larger groups are clustered greedily. -/
def find_duplicates_in_group (h : Content → Nat) (fs : FileSys) :
    List FileInfo → List DuplicateGroup
  | [] => []
  | [_] => []
  | [a, b] =>
    if (files_are_equal fs a.path b.path).getD false then
      [{ hash := quick_hash h fs a.path, files := [a, b], size := a.size }]
    else []
  | l@(_ :: _ :: _ :: _) =>
    (greedyGroups fs l).map fun g =>
      { hash := match g.head? with
          | some f => quick_hash h fs f.path
          | none => none
        files := g
        size := ((g.head?).map (fun f => f.size)).getD 0 }

/-- `find_duplicates` (`src/core/duplicates.rs`): size bucketing, quick
4 KB fingerprint bucketing, then byte-for-byte verification.  The source's
early returns on empty input and empty candidate sets produce the same value
as the fall-through computation and are omitted. -/
def find_duplicates (h : Content → Nat) (fs : FileSys)
    (files : List FileInfo) : List DuplicateGroup :=
  -- Step 1: group by size; zero-byte files are skipped.
  let by_size := groupByKey (fun f => if f.size > 0 then some f.size else none) files
  let potential_dups := (by_size.map Prod.snd).filter (fun g => g.length > 1)
  -- Step 2: quick hash of the first 4 KB (with the size) groups candidates.
  let files_flat := potential_dups.flatten
  let by_quick_hash := groupByKey (fun f => quick_hash_4kb h fs f.path) files_flat
  let candidates := (by_quick_hash.map Prod.snd).filter (fun g => g.length > 1)
  -- Steps 3 and 4: verify with a direct comparison inside each candidate group.
  (candidates.map (find_duplicates_in_group h fs)).flatten

/-! ### Properties of the duplicate engine -/

theorem getD_false_eq_true {o : Option Bool} (h : o.getD false = true) :
    o = some true := by
  cases o with
  | none => simp at h
  | some b => cases b with
    | false => simp at h
    | true => rfl

theorem files_are_equal_true_iff (fs : FileSys) (p q : Path) :
    files_are_equal fs p q = some true ↔
      ∃ c, fs p = some c ∧ fs q = some c := by
  constructor
  · intro h
    unfold files_are_equal at h
    cases hp : fs p with
    | none => rw [hp] at h; cases hq : fs q <;> rw [hq] at h <;> simp at h
    | some c1 =>
      cases hq : fs q with
      | none => rw [hp, hq] at h; simp at h
      | some c2 =>
        rw [hp, hq] at h
        have h' : (if c1.length ≠ c2.length then some false
            else if c1.length = 0 then some true
            else some (decide (c1 = c2))) = some true := h
        split_ifs at h' with h1 h2
        · simp at h'
        · push_neg at h1
          have hc1 : c1 = [] := List.eq_nil_of_length_eq_zero h2
          have hc2 : c2 = [] := List.eq_nil_of_length_eq_zero (by omega)
          exact ⟨[], by rw [hc1], by rw [hc2]⟩
        · simp only [Option.some.injEq, decide_eq_true_eq] at h'
          exact ⟨c1, rfl, by rw [h']⟩
  · rintro ⟨c, hp, hq⟩
    unfold files_are_equal
    rw [hp, hq]
    by_cases hc : c.length = 0 <;> simp [hc]

/-- Invariant transport through `insertKeyed`. -/
theorem insertKeyed_forall {κ : Type} [DecidableEq κ] (Q : κ → FileInfo → Prop)
    (k : κ) (f : FileInfo) (acc : List (κ × List FileInfo))
    (hacc : ∀ p ∈ acc, ∀ x ∈ p.2, Q p.1 x) (hf : Q k f) :
    ∀ p ∈ insertKeyed k f acc, ∀ x ∈ p.2, Q p.1 x := by
  induction acc with
  | nil =>
    intro p hp x hx
    simp only [insertKeyed, List.mem_singleton] at hp
    subst hp
    simp only [List.mem_singleton] at hx
    subst hx
    exact hf
  | cons head tail ih =>
    obtain ⟨q, g⟩ := head
    intro p hp x hx
    simp only [insertKeyed] at hp
    split at hp
    · rename_i hkq
      rcases List.mem_cons.mp hp with hp | hp
      · subst hp
        rcases List.mem_append.mp hx with hx | hx
        · exact hacc (q, g) (List.mem_cons_self _ _) x hx
        · simp only [List.mem_singleton] at hx
          subst hx
          exact hkq ▸ hf
      · exact hacc p (List.mem_cons_of_mem _ hp) x hx
    · rcases List.mem_cons.mp hp with hp | hp
      · subst hp
        exact hacc (q, g) (List.mem_cons_self _ _) x hx
      · exact ih (fun p hp => hacc p (List.mem_cons_of_mem _ hp)) p hp x hx

theorem groupByKey_go_forall {κ : Type} [DecidableEq κ] (Q : κ → FileInfo → Prop)
    (key : FileInfo → Option κ) :
    ∀ (l : List FileInfo) (acc : List (κ × List FileInfo)),
      (∀ f ∈ l, ∀ k, key f = some k → Q k f) →
      (∀ p ∈ acc, ∀ x ∈ p.2, Q p.1 x) →
      ∀ p ∈ l.foldl
        (fun acc f => match key f with
          | some k => insertKeyed k f acc
          | none => acc) acc,
        ∀ x ∈ p.2, Q p.1 x := by
  intro l
  induction l with
  | nil => intro acc _ hacc; exact hacc
  | cons f rest ih =>
    intro acc hl hacc
    simp only [List.foldl_cons]
    apply ih _ (fun x hx => hl x (List.mem_cons_of_mem _ hx))
    cases hk : key f with
    | none => exact hacc
    | some k =>
      exact insertKeyed_forall Q k f acc hacc
        (hl f (List.mem_cons_self _ _) k hk)

/-- Every member of a `groupByKey` group has the group's key. -/
theorem groupByKey_key {κ : Type} [DecidableEq κ] (key : FileInfo → Option κ)
    (files : List FileInfo) :
    ∀ p ∈ groupByKey key files, ∀ x ∈ p.2, key x = some p.1 :=
  groupByKey_go_forall (fun k x => key x = some k) key files []
    (fun _ _ _ h => h) (by simp)

/-- Every member of a `groupByKey` group is one of the input files. -/
theorem groupByKey_mem {κ : Type} [DecidableEq κ] (key : FileInfo → Option κ)
    (files : List FileInfo) :
    ∀ p ∈ groupByKey key files, ∀ x ∈ p.2, x ∈ files :=
  groupByKey_go_forall (fun _ x => x ∈ files) key files []
    (fun _ hf _ _ => hf) (by simp)

/-- Structure of a greedy cluster: a seed plus a nonempty set of later files,
each byte-equal to the seed. -/
theorem greedyGroups_spec (fs : FileSys) :
    ∀ (l : List FileInfo) (g : List FileInfo), g ∈ greedyGroups fs l →
      ∃ f eqs, g = f :: eqs ∧ eqs ≠ [] ∧
        (∀ x ∈ eqs, files_are_equal fs f.path x.path = some true) ∧
        f ∈ l ∧ ∀ x ∈ eqs, x ∈ l := by
  suffices H : ∀ (n : Nat) (l : List FileInfo), l.length = n →
      ∀ g ∈ greedyGroups fs l,
        ∃ f eqs, g = f :: eqs ∧ eqs ≠ [] ∧
          (∀ x ∈ eqs, files_are_equal fs f.path x.path = some true) ∧
          f ∈ l ∧ ∀ x ∈ eqs, x ∈ l by
    intro l
    exact H l.length l rfl
  intro n
  induction n using Nat.strong_induction_on with
  | _ n ih =>
    intro l hn
    match l with
    | [] => intro g hg; simp [greedyGroups] at hg
    | f :: rest =>
      intro g hg
      rw [greedyGroups] at hg
      set eqs := rest.filter
        (fun x => (files_are_equal fs f.path x.path).getD false) with heqs
      set neqs := rest.filter
        (fun x => !(files_are_equal fs f.path x.path).getD false) with hneqs
      have hlen : neqs.length < n := by
        rw [← hn]
        simp only [List.length_cons]
        exact Nat.lt_succ_of_le (List.length_filter_le _ rest)
      split at hg
      · obtain ⟨f', eqs', hmem, hne, heq, hf', hsub⟩ :=
          ih neqs.length hlen neqs rfl g hg
        exact ⟨f', eqs', hmem, hne, heq,
          List.mem_cons_of_mem _ (List.mem_of_mem_filter hf'),
          fun x hx => List.mem_cons_of_mem _ (List.mem_of_mem_filter (hsub x hx))⟩
      · rename_i hcond
        rcases List.mem_cons.mp hg with hg | hg
        · refine ⟨f, eqs, hg, ?_, ?_, List.mem_cons_self _ _, ?_⟩
          · simpa [List.isEmpty_iff] using hcond
          · intro x hx
            exact getD_false_eq_true (by simpa using (List.mem_filter.mp hx).2)
          · intro x hx
            exact List.mem_cons_of_mem _ (List.mem_of_mem_filter hx)
        · obtain ⟨f', eqs', hmem, hne, heq, hf', hsub⟩ :=
            ih neqs.length hlen neqs rfl g hg
          exact ⟨f', eqs', hmem, hne, heq,
            List.mem_cons_of_mem _ (List.mem_of_mem_filter hf'),
            fun x hx => List.mem_cons_of_mem _ (List.mem_of_mem_filter (hsub x hx))⟩

/-- Every group emitted by `find_duplicates_in_group` has a single common
content shared by all its members, and its members come from the input. -/
theorem find_duplicates_in_group_spec (h : Content → Nat) (fs : FileSys)
    (files : List FileInfo) :
    ∀ g ∈ find_duplicates_in_group h fs files,
      (∃ c, ∀ A ∈ g.files, fs A.path = some c) ∧ ∀ A ∈ g.files, A ∈ files := by
  intro g hg
  match files with
  | [] => simp [find_duplicates_in_group] at hg
  | [_] => simp [find_duplicates_in_group] at hg
  | [a, b] =>
    rw [find_duplicates_in_group] at hg
    split at hg
    · rename_i hab
      simp only [List.mem_singleton] at hg
      subst hg
      obtain ⟨c, hca, hcb⟩ :=
        (files_are_equal_true_iff fs a.path b.path).mp (getD_false_eq_true hab)
      refine ⟨⟨c, ?_⟩, ?_⟩
      · intro A hA
        rcases List.mem_cons.mp hA with hA | hA
        · subst hA; exact hca
        · simp only [List.mem_singleton] at hA
          subst hA; exact hcb
      · intro A hA
        rcases List.mem_cons.mp hA with hA | hA
        · subst hA; exact List.mem_cons_self _ _
        · simp only [List.mem_singleton] at hA
          subst hA; exact List.mem_cons_of_mem _ (List.mem_cons_self _ _)
    · simp at hg
  | a :: b :: d :: t =>
    rw [find_duplicates_in_group] at hg
    simp only [List.mem_map] at hg
    obtain ⟨cluster, hcl, rfl⟩ := hg
    obtain ⟨f, eqs, rfl, hne, heq, hf, hsub⟩ :=
      greedyGroups_spec fs (a :: b :: d :: t) cluster hcl
    obtain ⟨x, hx⟩ := List.exists_mem_of_ne_nil eqs hne
    obtain ⟨c, hcf, _⟩ := (files_are_equal_true_iff fs f.path x.path).mp (heq x hx)
    refine ⟨⟨c, ?_⟩, ?_⟩
    · intro A hA
      rcases List.mem_cons.mp hA with hA | hA
      · subst hA; exact hcf
      · obtain ⟨c', hcf', hcA⟩ :=
          (files_are_equal_true_iff fs f.path A.path).mp (heq A hA)
        have hcc : c = c' := by
          rw [hcf] at hcf'
          exact Option.some.inj hcf'
        rw [hcA, ← hcc]
    · intro A hA
      rcases List.mem_cons.mp hA with hA | hA
      · subst hA; exact hf
      · exact hsub A hA

/-- Every group emitted by `find_duplicates` has a single common content and
its members come from the input records. -/
theorem find_duplicates_spec (h : Content → Nat) (fs : FileSys)
    (files : List FileInfo) :
    ∀ g ∈ find_duplicates h fs files,
      (∃ c, ∀ A ∈ g.files, fs A.path = some c) ∧ ∀ A ∈ g.files, A ∈ files := by
  intro g hg
  unfold find_duplicates at hg
  simp only [List.mem_flatten, List.mem_map] at hg
  obtain ⟨gl, ⟨cand, hcand, rfl⟩, hgmem⟩ := hg
  have hcand' := (List.mem_filter.mp hcand).1
  simp only [List.mem_map] at hcand'
  obtain ⟨⟨k, cand'⟩, hk, hck⟩ := hcand'
  cases hck
  have hflat : ∀ x ∈ cand', x ∈ files := by
    intro x hx
    have hx' := groupByKey_mem _ _ _ hk x hx
    simp only [List.mem_flatten] at hx'
    obtain ⟨pg, hpg, hxpg⟩ := hx'
    have hpg' := (List.mem_filter.mp hpg).1
    simp only [List.mem_map] at hpg'
    obtain ⟨⟨sz, pg'⟩, hsz, hpk⟩ := hpg'
    cases hpk
    exact groupByKey_mem _ _ _ hsz x hxpg
  obtain ⟨hc, hsub⟩ := find_duplicates_in_group_spec h fs cand' g hgmem
  exact ⟨hc, fun A hA => hflat A (hsub A hA)⟩

/-- Claim C1: any two files that `find_duplicates` places in the same
`DuplicateGroup` have byte-for-byte equal contents.  The grouping is
established by the direct byte comparison `files_are_equal`, so the theorem
holds for an arbitrary fingerprint function `h`: no property of the hash
(such as collision-freedom) is used. -/
theorem find_duplicates_byte_equal :
    ∀ (h : Content → Nat) (fs : FileSys) (files : List FileInfo)
      (g : DuplicateGroup) (A B : FileInfo),
      g ∈ find_duplicates h fs files → A ∈ g.files → B ∈ g.files →
      ∃ c : Content, fs A.path = some c ∧ fs B.path = some c := by
  intro h fs files g A B hg hA hB
  obtain ⟨⟨c, hall⟩, _⟩ := find_duplicates_spec h fs files g hg
  exact ⟨c, hall A hA, hall B hB⟩

/-- Fixture filesystem for the C1 witness: `a.txt` and `b.txt` hold the same
two bytes, `c.txt` differs. -/
def fsW1 : FileSys := fun p =>
  if p = ["a.txt"] then some [104, 105]
  else if p = ["b.txt"] then some [104, 105]
  else if p = ["c.txt"] then some [119]
  else none

def recA1 : FileInfo := ⟨["a.txt"], "a.txt", some "txt", 2, 0⟩

def recB1 : FileInfo := ⟨["b.txt"], "b.txt", some "txt", 2, 0⟩

def recC1 : FileInfo := ⟨["c.txt"], "c.txt", some "txt", 1, 0⟩

/-- Concrete instance of claim C1: on the fixture scan, `find_duplicates`
groups `a.txt` with `b.txt`, and the theorem yields their common content. -/
theorem find_duplicates_byte_equal_witness :
    (⟨some 2, [recA1, recB1], 2⟩ : DuplicateGroup) ∈
      find_duplicates List.length fsW1 [recA1, recB1, recC1] ∧
    ∃ c : Content, fsW1 recA1.path = some c ∧ fsW1 recB1.path = some c := by
  have hmem : (⟨some 2, [recA1, recB1], 2⟩ : DuplicateGroup) ∈
      find_duplicates List.length fsW1 [recA1, recB1, recC1] := by decide
  exact ⟨hmem, find_duplicates_byte_equal List.length fsW1 [recA1, recB1, recC1]
    ⟨some 2, [recA1, recB1], 2⟩ recA1 recB1 hmem (by decide) (by decide)⟩

/-- Claim C4: a `DuplicateGroup` never contains two files of different byte
sizes: two members always have contents of equal length, and whenever the
records' `size` fields agree with the filesystem (a consistent scan
snapshot), the members' `size` fields are equal as well. -/
theorem find_duplicates_equal_sizes :
    ∀ (h : Content → Nat) (fs : FileSys) (files : List FileInfo)
      (g : DuplicateGroup) (A B : FileInfo),
      g ∈ find_duplicates h fs files → A ∈ g.files → B ∈ g.files →
      (∃ ca cb, fs A.path = some ca ∧ fs B.path = some cb ∧
        ca.length = cb.length) ∧
      ((∀ f ∈ files, ∀ c, fs f.path = some c → f.size = c.length) →
        A.size = B.size) := by
  intro h fs files g A B hg hA hB
  obtain ⟨⟨c, hall⟩, hsub⟩ := find_duplicates_spec h fs files g hg
  refine ⟨⟨c, c, hall A hA, hall B hB, rfl⟩, fun hcons => ?_⟩
  rw [hcons A (hsub A hA) c (hall A hA), hcons B (hsub B hB) c (hall B hB)]

/-- Fixture for the C4 witness: two three-byte duplicates and a one-byte
bystander. -/
def fsW2 : FileSys := fun p =>
  if p = ["x.bin"] then some [7, 8, 9]
  else if p = ["y.bin"] then some [7, 8, 9]
  else if p = ["z.bin"] then some [1]
  else none

def recX2 : FileInfo := ⟨["x.bin"], "x.bin", some "bin", 3, 0⟩

def recY2 : FileInfo := ⟨["y.bin"], "y.bin", some "bin", 3, 0⟩

def recZ2 : FileInfo := ⟨["z.bin"], "z.bin", some "bin", 1, 0⟩

/-- Concrete instance of claim C4: on the fixture scan the emitted group
contains `x.bin` and `y.bin`, whose sizes agree. -/
theorem find_duplicates_equal_sizes_witness :
    (⟨some 3, [recX2, recY2], 3⟩ : DuplicateGroup) ∈
      find_duplicates List.length fsW2 [recX2, recY2, recZ2] ∧
    recX2.size = recY2.size := by
  have hmem : (⟨some 3, [recX2, recY2], 3⟩ : DuplicateGroup) ∈
      find_duplicates List.length fsW2 [recX2, recY2, recZ2] := by decide
  refine ⟨hmem, ?_⟩
  exact (find_duplicates_equal_sizes List.length fsW2 [recX2, recY2, recZ2]
    ⟨some 3, [recX2, recY2], 3⟩ recX2 recY2 hmem (by decide) (by decide)).2
    (by decide)

/-! ## Decimal formatting

`resolve_conflict` formats the conflict counter in decimal
(Rust `format!` with `{}` on `usize`).  `natStr` is that decimal formatter,
written with structural recursion on a fuel bound so it reduces in the
kernel; `natStr_injective` is what the freshness argument needs. -/

/-- The decimal digit character for `d ∈ [0, 9]`. -/
def digitChar (d : Nat) : Char := Char.ofNat (48 + d)

/-- Digits of `n`, most significant first.  The fuel `f` bounds the recursion
depth; `f = n` always suffices, and the fuel-0 fallback is already correct
for one-digit numbers. -/
def natStrAux : Nat → Nat → List Char
  | 0, n => [digitChar (n % 10)]
  | fuel + 1, n =>
    if n < 10 then [digitChar n]
    else natStrAux fuel (n / 10) ++ [digitChar (n % 10)]

/-- Decimal rendering of a natural number. -/
def natStr (n : Nat) : String := ⟨natStrAux n n⟩

/-- Value of a digit string (the left fold a decimal reader performs). -/
def digitsVal (l : List Char) : Nat :=
  l.foldl (fun acc c => acc * 10 + (c.toNat - 48)) 0

theorem digitChar_toNat (d : Nat) (hd : d < 10) : (digitChar d).toNat = 48 + d :=
  char_toNat_ofNat_of_valid _ (Or.inl (by omega))

theorem digitsVal_append_digit (l : List Char) (c : Char) :
    digitsVal (l ++ [c]) = digitsVal l * 10 + (c.toNat - 48) := by
  simp [digitsVal, List.foldl_append]

theorem digitsVal_natStrAux : ∀ (f n : Nat), n ≤ f ∨ n < 10 →
    digitsVal (natStrAux f n) = n := by
  intro f
  induction f with
  | zero =>
    intro n hn
    have hn' : n < 10 := by omega
    simp only [natStrAux, digitsVal, List.foldl_cons, List.foldl_nil,
      Nat.mod_eq_of_lt hn', digitChar_toNat _ hn']
    omega
  | succ f ih =>
    intro n hn
    by_cases h10 : n < 10
    · simp [natStrAux, if_pos h10, digitsVal, digitChar_toNat _ h10]
    · rw [natStrAux, if_neg h10, digitsVal_append_digit,
        ih (n / 10) (Or.inl (by omega)),
        digitChar_toNat _ (by omega : n % 10 < 10)]
      omega

theorem natStr_injective : Function.Injective natStr := by
  intro a b h
  have hdata : natStrAux a a = natStrAux b b := congrArg String.data h
  have ha := digitsVal_natStrAux a a (Or.inl le_rfl)
  have hb := digitsVal_natStrAux b b (Or.inl le_rfl)
  rw [← ha, ← hb, hdata]

/-! ## Filename splitting and conflict-candidate names -/

/-- Split a character list at its last dot, returning the parts before and
after the dot; `none` when there is no dot. -/
def splitLastDot : List Char → Option (List Char × List Char)
  | [] => none
  | c :: cs =>
    match splitLastDot cs with
    | some (pre, suf) => some (c :: pre, suf)
    | none => if c = '.' then some ([], cs) else none

/-- `Path::file_stem` / `Path::extension` on a file name: split at the last
dot unless the part before it is empty (a leading-dot name has no
extension). -/
def splitStemExt (s : String) : String × Option String :=
  match splitLastDot s.data with
  | some (pre, suf) =>
    if pre.isEmpty then (s, none) else (⟨pre⟩, some ⟨suf⟩)
  | none => (s, none)

/-- The extension rendered as a suffix with its dot
(`extension().map(|e| format ".ext").unwrap_or_default()`). -/
def extSuffix : Option String → String
  | some e => "." ++ e
  | none => ""

/-- The candidate file name for conflict counter `c`
(`format stem_counter extension`). -/
def candidateName (stem extsfx : String) (c : Nat) : String :=
  stem ++ "_" ++ natStr c ++ extsfx

theorem candidateName_inj (stem extsfx : String) {c1 c2 : Nat}
    (h : candidateName stem extsfx c1 = candidateName stem extsfx c2) :
    c1 = c2 := by
  apply natStr_injective
  unfold candidateName at h
  have hdata := congrArg String.data h
  simp only [String.data_append, List.append_assoc] at hdata
  have h1 := List.append_cancel_left hdata
  have h2 := List.append_cancel_left h1
  have h3 := List.append_cancel_right h2
  exact congrArg String.mk h3

/-! ## The mutable filesystem

`World` is the state the execution engine mutates: the regular files with
their contents, the existing directories, and the environment's failure
behavior (paths where `create_dir_all` fails, and sources whose `rename`
fails with a permission/cross-device error).  A world with both failure
lists empty is a benign filesystem. -/

structure World where
  files : List (Path × Content)
  dirs : List Path
  dirFailures : List Path
  renameFailures : List Path
  deriving Repr, DecidableEq

/-- Contents of the file at `p`, if one exists. -/
def lookupFile : List (Path × Content) → Path → Option Content
  | [], _ => none
  | (q, c) :: rest, p => if q = p then some c else lookupFile rest p

/-- `Path::exists`: true when `p` is an existing file or directory. -/
def existsP (w : World) (p : Path) : Bool :=
  (lookupFile w.files p).isSome || w.dirs.contains p

/-- `fs::rename` with POSIX semantics: fails when the source is missing or
the environment refuses (`renameFailures`); on success the destination entry
is replaced by the source's content and the source entry disappears. -/
def renameW (w : World) (src dst : Path) : Option World :=
  if src ∈ w.renameFailures then none
  else
    match lookupFile w.files src with
    | none => none
    | some c =>
      some { w with
        files := (dst, c) :: w.files.filter (fun e => e.1 ≠ src ∧ e.1 ≠ dst) }

/-- `Path::parent`: `none` for the empty path, otherwise the path without its
last component. -/
def parentOf (p : Path) : Option Path :=
  match p with
  | [] => none
  | _ => some p.dropLast

/-- Display form of a path (used in error messages). -/
def pathStr (p : Path) : String := String.intercalate "/" p

/-! ## Conflict resolution (`resolve_conflict`, `src/organizer.rs`) -/

/-- The numeric-suffix probe loop of `resolve_conflict`: try
`stem_c ext`, `stem_c+1 ext`, ... until a non-existing path is found.  The
fuel bounds the loop; `numPaths w + 1` probes always suffice because the
candidate names are pairwise distinct and the world is finite. -/
def resolveAux (ex : Path → Bool) (parent : Path) (stem extsfx : String) :
    Nat → Nat → Option Path
  | 0, _ => none
  | fuel + 1, c =>
    let new_path := parent ++ [candidateName stem extsfx c]
    if ex new_path then resolveAux ex parent stem extsfx fuel (c + 1)
    else some new_path

/-- Number of filesystem entries, an upper bound for occupied candidate
names. -/
def numPaths (w : World) : Nat := w.files.length + w.dirs.length

/-- `resolve_conflict`: return `p` unchanged when it does not exist,
otherwise append `_1`, `_2`, ... to the file stem until the name is free. -/
def resolve_conflict (w : World) (p : Path) : Path :=
  if existsP w p then
    let fname := (p.getLast?).getD ""
    let se := splitStemExt fname
    let parent := p.dropLast
    (resolveAux (existsP w) parent se.1 (extSuffix se.2) (numPaths w + 1) 1).getD p
  else p

/-- All paths that `existsP` can report. -/
def occupied (w : World) : List Path := w.files.map Prod.fst ++ w.dirs

theorem lookupFile_isSome_mem (files : List (Path × Content)) (p : Path)
    (h : (lookupFile files p).isSome) : p ∈ files.map Prod.fst := by
  induction files with
  | nil => simp [lookupFile] at h
  | cons e rest ih =>
    obtain ⟨q, c⟩ := e
    rw [lookupFile] at h
    by_cases hq : q = p
    · subst hq
      simp
    · rw [if_neg hq] at h
      simp only [List.map_cons, List.mem_cons]
      exact Or.inr (ih h)

theorem existsP_mem_occupied (w : World) (p : Path) (h : existsP w p = true) :
    p ∈ occupied w := by
  unfold existsP at h
  rcases Bool.or_eq_true_iff.mp h with h | h
  · exact List.mem_append.mpr (Or.inl (lookupFile_isSome_mem _ _ h))
  · exact List.mem_append.mpr (Or.inr (by simpa using h))

/-- Candidate paths are injective in the counter. -/
theorem candidatePath_inj (parent : Path) (stem extsfx : String) :
    Function.Injective (fun c => parent ++ [candidateName stem extsfx c]) := by
  intro c1 c2 h
  simp only [List.append_cancel_left_eq, List.cons.injEq, and_true] at h
  exact candidateName_inj stem extsfx h

/-- Some counter in `[1, numPaths w + 1]` yields a free candidate path:
there are more candidates than filesystem entries. -/
theorem exists_free_candidate (w : World) (parent : Path)
    (stem extsfx : String) :
    ∃ k, 1 ≤ k ∧ k < 1 + (numPaths w + 1) ∧
      existsP w (parent ++ [candidateName stem extsfx k]) = false := by
  by_contra hno
  push_neg at hno
  have hocc : ∀ k, 1 ≤ k → k < numPaths w + 2 →
      (parent ++ [candidateName stem extsfx k]) ∈ occupied w := by
    intro k hk1 hk2
    apply existsP_mem_occupied
    have := hno k hk1 (by omega)
    revert this
    cases existsP w (parent ++ [candidateName stem extsfx k]) <;> simp
  have hlen : (occupied w).length = numPaths w := by
    simp [occupied, numPaths]
  set L : List Path := (List.range (numPaths w + 1)).map
    (fun i => parent ++ [candidateName stem extsfx (i + 1)]) with hL
  have hnodup : L.Nodup := by
    refine List.Nodup.map ?_ (List.nodup_range _)
    intro i j hij
    have := candidatePath_inj parent stem extsfx hij
    omega
  have hsubset : ∀ x ∈ L, x ∈ occupied w := by
    intro x hx
    rw [hL] at hx
    simp only [List.mem_map, List.mem_range] at hx
    obtain ⟨i, hi, rfl⟩ := hx
    exact hocc (i + 1) (by omega) (by omega)
  have hle : L.length ≤ (occupied w).length := by
    calc L.length = L.toFinset.card := (List.toFinset_card_of_nodup hnodup).symm
      _ ≤ (occupied w).toFinset.card := by
          apply Finset.card_le_card
          intro x hx
          rw [List.mem_toFinset] at hx ⊢
          exact hsubset x hx
      _ ≤ (occupied w).length := List.toFinset_card_le _
  rw [hL, hlen] at hle
  simp at hle

theorem resolveAux_free (ex : Path → Bool) (parent : Path)
    (stem extsfx : String) :
    ∀ (fuel c : Nat) (q : Path),
      resolveAux ex parent stem extsfx fuel c = some q → ex q = false := by
  intro fuel
  induction fuel with
  | zero => intro c q h; simp [resolveAux] at h
  | succ fuel ih =>
    intro c q h
    rw [resolveAux] at h
    split at h
    · exact ih (c + 1) q h
    · rename_i hex
      cases h
      revert hex
      cases ex (parent ++ [candidateName stem extsfx c]) <;> simp

theorem resolveAux_isSome (ex : Path → Bool) (parent : Path)
    (stem extsfx : String) :
    ∀ (fuel c : Nat),
      (∃ k, c ≤ k ∧ k < c + fuel ∧
        ex (parent ++ [candidateName stem extsfx k]) = false) →
      (resolveAux ex parent stem extsfx fuel c).isSome := by
  intro fuel
  induction fuel with
  | zero =>
    intro c h
    obtain ⟨k, h1, h2, _⟩ := h
    omega
  | succ fuel ih =>
    intro c h
    rw [resolveAux]
    split
    · rename_i hex
      apply ih
      obtain ⟨k, h1, h2, hk⟩ := h
      refine ⟨k, ?_, by omega, hk⟩
      rcases Nat.eq_or_lt_of_le h1 with rfl | h1
      · rw [hk] at hex
        cases hex
      · omega
    · simp

/-- Claim C5 core lemma: the path `resolve_conflict` returns never exists in
the world it was resolved against. -/
theorem resolve_conflict_fresh (w : World) (p : Path) :
    existsP w (resolve_conflict w p) = false := by
  unfold resolve_conflict
  split
  · rename_i hex
    obtain ⟨k, hk1, hk2, hkfree⟩ :=
      exists_free_candidate w p.dropLast (splitStemExt ((p.getLast?).getD "")).1
        (extSuffix (splitStemExt ((p.getLast?).getD "")).2)
    have hsome := resolveAux_isSome (existsP w) p.dropLast
      (splitStemExt ((p.getLast?).getD "")).1
      (extSuffix (splitStemExt ((p.getLast?).getD "")).2)
      (numPaths w + 1) 1 ⟨k, hk1, by omega, hkfree⟩
    obtain ⟨q, hq⟩ := Option.isSome_iff_exists.mp hsome
    simp only [hq, Option.getD_some]
    exact resolveAux_free _ _ _ _ _ _ _ hq
  · rename_i hex
    exact Bool.not_eq_true _ |>.mp hex

/-! ## Operation log (`src/utils/logger.rs`) -/

/-- `OperationType`. -/
inductive OperationType where
  | Move
  | Delete
  deriving Repr, DecidableEq

/-- `FileOperation` (`from`/`to` are rendered as `src`/`dst`; `dst` is the
empty path for a `Delete`). -/
structure FileOperation where
  src : Path
  dst : Path
  operation_type : OperationType
  deriving Repr, DecidableEq

/-- `OperationBatch` (the timestamp is an abstract `Nat`). -/
structure OperationBatch where
  timestamp : Nat
  command : String
  operations : List FileOperation
  deriving Repr, DecidableEq

/-- `History`. -/
structure History where
  batches : List OperationBatch
  deriving Repr, DecidableEq

/-- `History::add_batch`: push the new batch, then drop the oldest batch when
more than 50 are retained. -/
def History.add_batch (h : History) (now : Nat) (command : String)
    (operations : List FileOperation) : History :=
  let batches := h.batches ++ [⟨now, command, operations⟩]
  if batches.length > 50 then ⟨batches.tail⟩ else ⟨batches⟩

/-- `History::pop_last`: remove and return the most recent batch. -/
def History.pop_last (h : History) : Option OperationBatch × History :=
  (h.batches.getLast?, ⟨h.batches.dropLast⟩)

/-- `History::is_empty`. -/
def History.is_empty (h : History) : Bool := h.batches.isEmpty

/-- `Logger::save`: an empty operation list leaves the persisted history
untouched; otherwise the batch is appended (and persisted). -/
def Logger.save (now : Nat) (command : String)
    (operations : List FileOperation) (hist : History) : History :=
  if operations.isEmpty then hist
  else hist.add_batch now command operations

/-! ## Execution engine (`execute_moves`, `src/organizer.rs`) -/

/-- `PlannedMove`. -/
structure PlannedMove where
  src : Path
  dst : Path
  size : Nat
  deriving Repr, DecidableEq

/-- `OrganizeResult`. -/
structure OrganizeResult where
  moved : Nat
  skipped : Nat
  errors : List String
  total_size : Nat
  deriving Repr, DecidableEq

/-- The OS error text for a failed rename in this model. -/
def renameErrMsg (w : World) (src : Path) : String :=
  if src ∈ w.renameFailures then "Permission denied"
  else "No such file or directory"

/-- The `create parent directory if needed` prologue of the move loop:
nothing to do when the destination has no parent or the parent exists;
otherwise `create_dir_all`, whose failure is propagated with `?` (aborting
the whole batch). -/
def mkParentDirs (w : World) (dst : Path) : Except String World :=
  match parentOf dst with
  | none => .ok w
  | some par =>
    if w.dirs.contains par then .ok w
    else if w.dirFailures.contains par then
      .error ("Failed to create directory: " ++ pathStr par)
    else .ok { w with dirs := par :: w.dirs }

/-- The per-move loop of `execute_moves`: create the parent directory
(failure aborts via `?`), resolve the name conflict, rename; a failed rename
is counted as skipped with its error message retained and the loop
continues.  Returns the result counters, the final world, and the logged
operations in execution order. -/
def execute_moves_go (w : World) :
    List PlannedMove → Except String (OrganizeResult × World × List FileOperation)
  | [] => .ok (⟨0, 0, [], 0⟩, w, [])
  | mv :: rest =>
    match mkParentDirs w mv.dst with
    | .error e => .error e
    | .ok w1 =>
      let final_dest := resolve_conflict w1 mv.dst
      match renameW w1 mv.src final_dest with
      | some w2 =>
        match execute_moves_go w2 rest with
        | .error e => .error e
        | .ok (r, w3, ops) =>
          .ok (⟨r.moved + 1, r.skipped, r.errors, r.total_size + mv.size⟩, w3,
            ⟨mv.src, final_dest, .Move⟩ :: ops)
      | none =>
        match execute_moves_go w1 rest with
        | .error e => .error e
        | .ok (r, w3, ops) =>
          .ok (⟨r.moved, r.skipped + 1,
            (pathStr mv.src ++ ": " ++ renameErrMsg w1 mv.src) :: r.errors,
            r.total_size⟩, w3, ops)

/-- `execute_moves`: run the loop, then `logger.save()` persists the logged
batch (a no-op when nothing was logged). -/
def execute_moves (w : World) (hist : History) (now : Nat)
    (command_name : String) (moves : List PlannedMove) :
    Except String (OrganizeResult × World × History) :=
  match execute_moves_go w moves with
  | .error e => .error e
  | .ok (r, w1, ops) => .ok (r, w1, Logger.save now command_name ops hist)

/-! ### No-overwrite: content preservation through `execute_moves` -/

/-- Number of files whose content is exactly `c`. -/
def countContent (files : List (Path × Content)) (c : Content) : Nat :=
  (files.filter (fun e => e.2 = c)).length

theorem countContent_cons (e : Path × Content) (files : List (Path × Content))
    (c : Content) :
    countContent (e :: files) c =
      (if e.2 = c then 1 else 0) + countContent files c := by
  by_cases h : e.2 = c
  · simp [countContent, List.filter_cons, h]
    omega
  · simp [countContent, List.filter_cons, h]

theorem lookupFile_none_iff (files : List (Path × Content)) (p : Path) :
    lookupFile files p = none ↔ p ∉ files.map Prod.fst := by
  induction files with
  | nil => simp [lookupFile]
  | cons e rest ih =>
    obtain ⟨q, c⟩ := e
    by_cases hq : q = p
    · subst hq
      simp [lookupFile]
    · simp only [lookupFile, if_neg hq, List.map_cons, List.mem_cons, ih]
      constructor
      · intro h
        exact fun hc => hc.elim (fun h1 => hq h1.symm) h
      · intro h
        exact fun hc => h (Or.inr hc)

/-- Renaming a present source onto an absent destination preserves, for each
content value, the number of files holding it (so no file's content is
destroyed). -/
theorem count_after_rename (src dst : Path) (c0 : Content) :
    ∀ files : List (Path × Content), (files.map Prod.fst).Nodup →
      lookupFile files src = some c0 →
      dst ∉ files.map Prod.fst →
      ∀ c, countContent
        ((dst, c0) :: files.filter (fun e => e.1 ≠ src ∧ e.1 ≠ dst)) c =
        countContent files c := by
  intro files
  induction files with
  | nil => intro _ h; simp [lookupFile] at h
  | cons e rest ih =>
    obtain ⟨q, c1⟩ := e
    intro hnodup hlook hdst c
    simp only [List.map_cons, List.nodup_cons] at hnodup
    simp only [List.map_cons, List.mem_cons, not_or] at hdst
    obtain ⟨hdq, hdrest⟩ := hdst
    by_cases hq : q = src
    · subst hq
      rw [lookupFile, if_pos rfl, Option.some.injEq] at hlook
      subst hlook
      have hfilter : rest.filter (fun e => e.1 ≠ q ∧ e.1 ≠ dst) = rest := by
        apply List.filter_eq_self.mpr
        intro e he
        have h1 : e.1 ≠ q := fun hc => hnodup.1 (hc ▸ List.mem_map_of_mem _ he)
        have h2 : e.1 ≠ dst := fun hc => hdrest (hc ▸ List.mem_map_of_mem _ he)
        simp [h1, h2]
      simp only [List.filter_cons, decide_eq_true_eq]
      rw [if_neg (by simp)]
      rw [hfilter, countContent_cons, countContent_cons]
    · rw [lookupFile, if_neg hq] at hlook
      have hqd : q ≠ dst := fun hc => hdq hc.symm
      have hkeep : (decide ((q, c1).1 ≠ src ∧ (q, c1).1 ≠ dst)) = true := by
        simp [hq, hqd]
      simp only [List.filter_cons, hkeep, if_pos]
      have ihc := ih hnodup.2 hlook hdrest c
      simp only [countContent_cons] at ihc ⊢
      omega

/-- `renameW` onto a fresh destination: content counts and key distinctness
are preserved. -/
theorem renameW_preserves (w : World) (src dst : Path) (w2 : World)
    (hnodup : (w.files.map Prod.fst).Nodup)
    (hfresh : existsP w dst = false)
    (hren : renameW w src dst = some w2) :
    (∀ c, countContent w2.files c = countContent w.files c) ∧
    (w2.files.map Prod.fst).Nodup ∧ w2.dirs = w.dirs ∧
    w2.dirFailures = w.dirFailures ∧ w2.renameFailures = w.renameFailures := by
  unfold renameW at hren
  split at hren
  · cases hren
  · rename_i hfail
    cases hlook : lookupFile w.files src with
    | none => rw [hlook] at hren; cases hren
    | some c0 =>
      rw [hlook] at hren
      cases hren
      have hdst : dst ∉ w.files.map Prod.fst := by
        intro hc
        unfold existsP at hfresh
        rcases Bool.or_eq_false_iff.mp hfresh with ⟨h1, _⟩
        have hnone : lookupFile w.files dst = none := by
          cases hl : lookupFile w.files dst with
          | none => rfl
          | some c' => rw [hl] at h1; simp at h1
        exact (lookupFile_none_iff w.files dst).mp hnone hc
      refine ⟨count_after_rename src dst c0 w.files hnodup hlook hdst, ?_, rfl, rfl, rfl⟩
      simp only [List.map_cons, List.nodup_cons]
      constructor
      · intro hc
        have hsub : (w.files.filter
            (fun e => e.1 ≠ src ∧ e.1 ≠ dst)).map Prod.fst ⊆
            w.files.map Prod.fst :=
          List.map_subset _ ((List.filter_sublist _).subset)
        exact hdst (hsub hc)
      · exact List.Nodup.sublist
          (List.Sublist.map Prod.fst (List.filter_sublist _)) hnodup

theorem mkParentDirs_ok (w : World) (dst : Path) (w1 : World)
    (h : mkParentDirs w dst = .ok w1) :
    w1.files = w.files ∧ w1.dirFailures = w.dirFailures ∧
    w1.renameFailures = w.renameFailures := by
  unfold mkParentDirs at h
  split at h
  · cases h; exact ⟨rfl, rfl, rfl⟩
  · split_ifs at h
    · cases h; exact ⟨rfl, rfl, rfl⟩
    · cases h; exact ⟨rfl, rfl, rfl⟩

theorem renameW_frame (w : World) (src dst : Path) (w2 : World)
    (h : renameW w src dst = some w2) :
    w2.dirs = w.dirs ∧ w2.dirFailures = w.dirFailures ∧
    w2.renameFailures = w.renameFailures := by
  unfold renameW at h
  split at h
  · cases h
  · split at h
    · cases h
    · cases h; exact ⟨rfl, rfl, rfl⟩

/-- Bookkeeping of the move loop: `moved` counts the logged operations,
every planned move ends as moved or skipped, each skip retains one error
message, and only `Move` operations are ever logged. -/
theorem execute_moves_go_counts :
    ∀ (moves : List PlannedMove) (w : World)
      (out : OrganizeResult × World × List FileOperation),
      execute_moves_go w moves = .ok out →
      out.1.moved = out.2.2.length ∧
      out.1.moved + out.1.skipped = moves.length ∧
      out.1.errors.length = out.1.skipped ∧
      ∀ op ∈ out.2.2, op.operation_type = OperationType.Move := by
  intro moves
  induction moves with
  | nil =>
    intro w out h
    rw [execute_moves_go] at h
    injection h with h
    subst h
    simp
  | cons mv rest ih =>
    intro w out h
    rw [execute_moves_go] at h
    cases hmk : mkParentDirs w mv.dst with
    | error e => rw [hmk] at h; cases h
    | ok w1 =>
      rw [hmk] at h
      simp only at h
      cases hren : renameW w1 mv.src (resolve_conflict w1 mv.dst) with
      | some w2 =>
        rw [hren] at h
        simp only at h
        cases hrec : execute_moves_go w2 rest with
        | error e => rw [hrec] at h; cases h
        | ok out3 =>
          rw [hrec] at h
          simp only at h
          injection h with h
          subst h
          obtain ⟨h1, h2, h3, h4⟩ := ih w2 out3 hrec
          refine ⟨by simpa using h1, by simp only [List.length_cons]; omega,
            h3, ?_⟩
          intro op hop
          rcases List.mem_cons.mp hop with hop | hop
          · subst hop; rfl
          · exact h4 op hop
      | none =>
        rw [hren] at h
        simp only at h
        cases hrec : execute_moves_go w1 rest with
        | error e => rw [hrec] at h; cases h
        | ok out3 =>
          rw [hrec] at h
          simp only at h
          injection h with h
          subst h
          obtain ⟨h1, h2, h3, h4⟩ := ih w1 out3 hrec
          exact ⟨h1, by simp only [List.length_cons]; omega,
            by simp only [List.length_cons]; omega, h4⟩

/-- Content counts (and key distinctness) are preserved by the move loop:
no file content is ever lost, because every rename targets a fresh path. -/
theorem execute_moves_go_preserves :
    ∀ (moves : List PlannedMove) (w : World)
      (out : OrganizeResult × World × List FileOperation),
      (w.files.map Prod.fst).Nodup →
      execute_moves_go w moves = .ok out →
      (∀ c, countContent out.2.1.files c = countContent w.files c) ∧
      (out.2.1.files.map Prod.fst).Nodup := by
  intro moves
  induction moves with
  | nil =>
    intro w out hnodup h
    rw [execute_moves_go] at h
    injection h with h
    subst h
    exact ⟨fun c => rfl, hnodup⟩
  | cons mv rest ih =>
    intro w out hnodup h
    rw [execute_moves_go] at h
    cases hmk : mkParentDirs w mv.dst with
    | error e => rw [hmk] at h; cases h
    | ok w1 =>
      rw [hmk] at h
      simp only at h
      obtain ⟨hf1, _, _⟩ := mkParentDirs_ok w mv.dst w1 hmk
      have hnodup1 : (w1.files.map Prod.fst).Nodup := by rw [hf1]; exact hnodup
      have hfresh : existsP w1 (resolve_conflict w1 mv.dst) = false :=
        resolve_conflict_fresh w1 mv.dst
      cases hren : renameW w1 mv.src (resolve_conflict w1 mv.dst) with
      | some w2 =>
        rw [hren] at h
        simp only at h
        obtain ⟨hcount2, hnodup2, _, _, _⟩ :=
          renameW_preserves w1 mv.src (resolve_conflict w1 mv.dst) w2
            hnodup1 hfresh hren
        cases hrec : execute_moves_go w2 rest with
        | error e => rw [hrec] at h; cases h
        | ok out3 =>
          rw [hrec] at h
          simp only at h
          injection h with h
          subst h
          obtain ⟨hc3, hn3⟩ := ih w2 out3 hnodup2 hrec
          refine ⟨fun c => ?_, hn3⟩
          rw [hc3 c, hcount2 c, hf1]
      | none =>
        rw [hren] at h
        simp only at h
        cases hrec : execute_moves_go w1 rest with
        | error e => rw [hrec] at h; cases h
        | ok out3 =>
          rw [hrec] at h
          simp only at h
          injection h with h
          subst h
          obtain ⟨hc3, hn3⟩ := ih w1 out3 hnodup1 hrec
          refine ⟨fun c => ?_, hn3⟩
          rw [hc3 c, hf1]

/-- When no needed parent directory is in the failure set, the move loop
never aborts. -/
theorem execute_moves_go_total :
    ∀ (moves : List PlannedMove) (w : World),
      (∀ mv ∈ moves, ∀ par, parentOf mv.dst = some par →
        par ∉ w.dirFailures) →
      ∃ out, execute_moves_go w moves = .ok out := by
  intro moves
  induction moves with
  | nil => intro w _; exact ⟨_, rfl⟩
  | cons mv rest ih =>
    intro w hdirs
    have hmk : ∃ w1, mkParentDirs w mv.dst = .ok w1 ∧
        w1.dirFailures = w.dirFailures := by
      unfold mkParentDirs
      cases hpar : parentOf mv.dst with
      | none => exact ⟨w, rfl, rfl⟩
      | some par =>
        simp only
        by_cases hin : w.dirs.contains par
        · rw [if_pos hin]
          exact ⟨w, rfl, rfl⟩
        · rw [if_neg hin]
          have hnf : ¬ w.dirFailures.contains par = true := by
            have hmem := hdirs mv (List.mem_cons_self _ _) par hpar
            simpa using hmem
          rw [if_neg hnf]
          exact ⟨_, rfl, rfl⟩
    obtain ⟨w1, hmk1, hdf1⟩ := hmk
    rw [execute_moves_go, hmk1]
    simp only
    cases hren : renameW w1 mv.src (resolve_conflict w1 mv.dst) with
    | some w2 =>
      obtain ⟨_, hdf2, _⟩ :=
        renameW_frame w1 mv.src (resolve_conflict w1 mv.dst) w2 hren
      obtain ⟨out3, hout3⟩ := ih w2 (by
        intro m hm par hpar
        rw [hdf2, hdf1]
        exact hdirs m (List.mem_cons_of_mem _ hm) par hpar)
      simp only
      rw [hout3]
      exact ⟨_, rfl⟩
    | none =>
      obtain ⟨out3, hout3⟩ := ih w1 (by
        intro m hm par hpar
        rw [hdf1]
        exact hdirs m (List.mem_cons_of_mem _ hm) par hpar)
      simp only
      rw [hout3]
      exact ⟨_, rfl⟩

deriving instance DecidableEq for Except

/-- Claim C5: under the (sole) `Rename` conflict strategy, `execute_moves`
never overwrites an existing file.  First, the destination actually written
to — `resolve_conflict`'s output, computed against the state at the moment
of the rename — never exists in that state.  Second, as a consequence, for
every content value the number of files holding it is unchanged by an
executed batch: no file's content is ever destroyed. -/
theorem execute_moves_never_overwrites :
    (∀ (w : World) (p : Path), existsP w (resolve_conflict w p) = false) ∧
    (∀ (w : World) (hist : History) (now : Nat) (cmd : String)
      (moves : List PlannedMove) (r : OrganizeResult) (w' : World)
      (hist' : History),
      (w.files.map Prod.fst).Nodup →
      execute_moves w hist now cmd moves = .ok (r, w', hist') →
      ∀ c, countContent w'.files c = countContent w.files c) := by
  refine ⟨resolve_conflict_fresh, ?_⟩
  intro w hist now cmd moves r w' hist' hnodup hexec c
  unfold execute_moves at hexec
  cases hgo : execute_moves_go w moves with
  | error e => rw [hgo] at hexec; cases hexec
  | ok out =>
    rw [hgo] at hexec
    simp only at hexec
    obtain ⟨r1, w1, ops1⟩ := out
    injection hexec with hexec
    obtain ⟨hc, _⟩ := execute_moves_go_preserves moves w (r1, w1, ops1) hnodup hgo
    have hw : w' = w1 := by
      have := congrArg (fun t => t.2.1) hexec
      exact this.symm
    rw [hw]
    exact hc c

/-- Fixture for the C5 witness: moving `x` onto the occupied name `d/x`
resolves to the fresh name `d/x_1`. -/
def wC5 : World := ⟨[(["x"], [1]), (["d", "x"], [2])], [], [], []⟩

def mvC5 : PlannedMove := ⟨["x"], ["d", "x"], 1⟩

def w2C5 : World :=
  ⟨[(["d", "x_1"], [1]), (["d", "x"], [2])], [["d"]], [], []⟩

/-- Concrete instance of claim C5: the conflicting destination resolves to a
path that did not exist, and executing the move preserves the number of
files holding the bystander content `[2]`. -/
theorem execute_moves_never_overwrites_witness :
    existsP wC5 (resolve_conflict wC5 ["d", "x"]) = false ∧
    countContent w2C5.files [2] = countContent wC5.files [2] := by
  have hexec : execute_moves wC5 ⟨[]⟩ 0 "organize --by-type" [mvC5] =
      .ok (⟨1, 0, [], 1⟩, w2C5,
        ⟨[⟨0, "organize --by-type",
          [⟨["x"], ["d", "x_1"], .Move⟩]⟩]⟩) := by decide
  exact ⟨execute_moves_never_overwrites.1 wC5 ["d", "x"],
    execute_moves_never_overwrites.2 wC5 ⟨[]⟩ 0 "organize --by-type" [mvC5]
      ⟨1, 0, [], 1⟩ w2C5 _ (by decide) hexec [2]⟩

/-- Fixture refuting claim C3 as stated: the first move's destination parent
directory `t` cannot be created. -/
def wC3 : World := ⟨[(["s", "a"], [1]), (["s", "b"], [2])], [["s"]], [["t"]], []⟩

/-- Counterexample to claim C3 as stated: a failure to create the
destination's parent directory is NOT caught and counted as skipped — the
`?` on `create_dir_all` aborts `execute_moves` with an error, and the
remaining move of the batch is never attempted. -/
theorem execute_moves_dir_failure_aborts :
    execute_moves wC3 ⟨[]⟩ 0 "organize --by-type"
      [⟨["s", "a"], ["t", "a"], 1⟩, ⟨["s", "b"], ["u", "b"], 2⟩] =
      .error "Failed to create directory: t" ∧
    ¬ ∃ out, execute_moves wC3 ⟨[]⟩ 0 "organize --by-type"
      [⟨["s", "a"], ["t", "a"], 1⟩, ⟨["s", "b"], ["u", "b"], 2⟩] =
      .ok out := by
  have h : execute_moves wC3 ⟨[]⟩ 0 "organize --by-type"
      [⟨["s", "a"], ["t", "a"], 1⟩, ⟨["s", "b"], ["u", "b"], 2⟩] =
      .error "Failed to create directory: t" := by decide
  refine ⟨h, ?_⟩
  rintro ⟨out, hout⟩
  rw [h] at hout
  cases hout

/-- Claim C3 (amended): per-file rename failures (permission denied,
cross-device, missing source) are caught, counted as skipped with one error
message retained per skip, and do not abort the batch: every planned move
is processed.  This holds whenever no needed parent-directory creation
fails; a parent-directory creation failure instead aborts the whole batch
(see the counterexample). -/
theorem execute_moves_rename_failures_skipped :
    ∀ (w : World) (hist : History) (now : Nat) (cmd : String)
      (moves : List PlannedMove),
      (∀ mv ∈ moves, ∀ par, parentOf mv.dst = some par →
        par ∉ w.dirFailures) →
      ∃ r w' hist', execute_moves w hist now cmd moves = .ok (r, w', hist') ∧
        r.moved + r.skipped = moves.length ∧
        r.errors.length = r.skipped := by
  intro w hist now cmd moves hdirs
  obtain ⟨out, hout⟩ := execute_moves_go_total moves w hdirs
  obtain ⟨r, w', ops⟩ := out
  obtain ⟨_, h2, h3, _⟩ := execute_moves_go_counts moves w (r, w', ops) hout
  refine ⟨r, w', Logger.save now cmd ops hist, ?_, h2, h3⟩
  unfold execute_moves
  rw [hout]

/-- Fixture for the C3 witness: renaming `c` fails with a permission error,
`a` succeeds. -/
def wC3w : World := ⟨[(["a"], [5]), (["c"], [6])], [], [], [["c"]]⟩

/-- Concrete instance of amended claim C3: one of two moves fails its
rename; the run still completes with both moves accounted for and one
retained error message. -/
theorem execute_moves_rename_failures_skipped_witness :
    ∃ r w' hist',
      execute_moves wC3w ⟨[]⟩ 0 "organize --by-date"
        [⟨["a"], ["d", "a"], 5⟩, ⟨["c"], ["d", "c"], 6⟩] =
        .ok (r, w', hist') ∧
      r.moved + r.skipped = 2 ∧
      r.errors.length = r.skipped :=
  execute_moves_rename_failures_skipped wC3w ⟨[]⟩ 0 "organize --by-date"
    [⟨["a"], ["d", "a"], 5⟩, ⟨["c"], ["d", "c"], 6⟩] (by decide)

/-! ### History cap (claim C6) -/

theorem add_batch_le_50 (h : History) (now : Nat) (cmd : String)
    (ops : List FileOperation) (hle : h.batches.length ≤ 50) :
    (h.add_batch now cmd ops).batches.length ≤ 50 := by
  unfold History.add_batch
  simp only
  split
  · rename_i hgt
    simp only [List.length_tail, List.length_append, List.length_singleton]
    omega
  · rename_i hngt
    simp only [List.length_append, List.length_singleton] at hngt ⊢
    omega

/-- Claim C6: starting from any history within the 50-batch cap, any
sequence of `add_batch` calls keeps the history within the cap; and adding
a batch when exactly 50 are retained appends the new batch and evicts the
oldest one. -/
theorem history_never_exceeds_50 :
    (∀ (h : History) (l : List (Nat × String × List FileOperation)),
      h.batches.length ≤ 50 →
      (l.foldl (fun (acc : History) x =>
        acc.add_batch x.1 x.2.1 x.2.2) h).batches.length ≤ 50) ∧
    (∀ (h : History) (now : Nat) (cmd : String) (ops : List FileOperation),
      h.batches.length = 50 →
      (h.add_batch now cmd ops).batches =
        h.batches.tail ++ [⟨now, cmd, ops⟩]) := by
  constructor
  · intro h l
    induction l generalizing h with
    | nil => intro hle; exact hle
    | cons x rest ih =>
      intro hle
      exact ih _ (add_batch_le_50 h x.1 x.2.1 x.2.2 hle)
  · intro h now cmd ops hlen
    unfold History.add_batch
    rw [if_pos (by simp [hlen])]
    cases hb : h.batches with
    | nil => rw [hb] at hlen; simp at hlen
    | cons b bs => simp

/-- Concrete instance of claim C6: folding 51 batches into an empty history
retains at most 50, and adding to a full history of 50 distinct batches
evicts the oldest. -/
theorem history_never_exceeds_50_witness :
    ((List.replicate 51 ((0 : Nat), ("organize", ([] : List FileOperation)))).foldl
      (fun (acc : History) x =>
        acc.add_batch x.1 x.2.1 x.2.2) ⟨[]⟩).batches.length ≤ 50 ∧
    ((⟨List.replicate 50 ⟨7, "old", []⟩⟩ : History).add_batch 9 "new" []).batches =
      (List.replicate 50 (⟨7, "old", []⟩ : OperationBatch)).tail ++
        [⟨9, "new", []⟩] := by
  refine ⟨history_never_exceeds_50.1 ⟨[]⟩ _ (by decide), ?_⟩
  exact history_never_exceeds_50.2 ⟨List.replicate 50 ⟨7, "old", []⟩⟩ 9 "new" []
    (by decide)

/-! ### Empty batches are never persisted (claim C9) -/

/-- Claim C9: `Logger::save` with an empty operation list leaves the
persisted history unchanged; consequently a batch of moves in which no
rename succeeded appends nothing, and a batch is appended exactly when at
least one operation was logged (`moved > 0`). -/
theorem empty_batch_not_persisted :
    (∀ (now : Nat) (cmd : String) (hist : History),
      Logger.save now cmd [] hist = hist) ∧
    (∀ (w : World) (hist : History) (now : Nat) (cmd : String)
      (moves : List PlannedMove) (r : OrganizeResult) (w' : World)
      (hist' : History),
      execute_moves w hist now cmd moves = .ok (r, w', hist') →
      (r.moved = 0 → hist' = hist) ∧
      (0 < r.moved → ∃ ops : List FileOperation, ops ≠ [] ∧
        ops.length = r.moved ∧ hist' = hist.add_batch now cmd ops)) := by
  constructor
  · intro now cmd hist
    simp [Logger.save]
  · intro w hist now cmd moves r w' hist' hexec
    unfold execute_moves at hexec
    cases hgo : execute_moves_go w moves with
    | error e => rw [hgo] at hexec; cases hexec
    | ok out =>
      rw [hgo] at hexec
      simp only at hexec
      obtain ⟨r1, w1, ops1⟩ := out
      injection hexec with hexec
      obtain ⟨hmoved, _, _, _⟩ := execute_moves_go_counts moves w (r1, w1, ops1) hgo
      have hmoved' : r1.moved = ops1.length := hmoved
      have hr : r = r1 := congrArg (fun t => t.1) hexec.symm
      have hh : hist' = Logger.save now cmd ops1 hist :=
        congrArg (fun t => t.2.2) hexec.symm
      subst hr
      constructor
      · intro hz
        have hops : ops1 = [] := by
          have hlen : ops1.length = 0 := by omega
          exact List.length_eq_zero.mp hlen
        rw [hh, hops]
        simp [Logger.save]
      · intro hpos
        have hne : ops1 ≠ [] := by
          intro hc
          rw [hc] at hmoved'
          simp at hmoved'
          omega
        refine ⟨ops1, hne, hmoved'.symm, ?_⟩
        rw [hh]
        unfold Logger.save
        rw [if_neg (by rwa [ne_eq, ← List.isEmpty_iff] at hne)]

/-- Concrete instance of claim C9: a single move whose rename fails (missing
source) leaves the persisted history exactly as it was. -/
theorem empty_batch_not_persisted_witness :
    ∃ r w' hist',
      execute_moves ⟨[], [], [], []⟩ ⟨[⟨0, "old", []⟩]⟩ 1 "organize --by-type"
        [⟨["a"], ["b", "a"], 1⟩] = .ok (r, w', hist') ∧
      hist' = ⟨[⟨0, "old", []⟩]⟩ := by
  have hexec : execute_moves ⟨[], [], [], []⟩ ⟨[⟨0, "old", []⟩]⟩ 1
      "organize --by-type" [⟨["a"], ["b", "a"], 1⟩] =
      .ok (⟨0, 1, ["a: No such file or directory"], 0⟩,
        ⟨[], [["b"]], [], []⟩, ⟨[⟨0, "old", []⟩]⟩) := by decide
  exact ⟨_, _, _, hexec,
    (empty_batch_not_persisted.2 _ _ _ _ _ _ _ _ hexec).1 (by decide)⟩

/-! ## Planner (`plan_moves`, `src/organizer.rs`)

The chrono year/month conversion of the modified timestamp and the EXIF
camera/date-taken lookups are external collaborators (spec section 6);
they enter as the opaque `MetaLookup` parameter. -/

/-- Character-wise uppercasing, the embedding of `str::to_uppercase`
(used for `ByExtension` folder names). -/
def toUpperStr (s : String) : String := ⟨s.data.map Char.toUpper⟩

/-- `OrganizeMode`. -/
inductive OrganizeMode where
  | ByType
  | ByDate
  | ByExtension
  | ByCamera
  | ByDateTaken
  deriving Repr, DecidableEq

/-- External collaborators consumed by the planner: the year/month rendering
of a modified timestamp, and the EXIF lookups. -/
structure MetaLookup where
  ym : Nat → String × String
  exifSupported : Path → Bool
  cameraFolder : Path → Option String
  dateTakenFolder : Path → Option (List String)

/-- The destination computation of the planning loop; `none` models the
`continue` taken for non-EXIF files in `ByCamera` mode. -/
def plan_dest (ml : MetaLookup) (base_path : Path) (mode : OrganizeMode)
    (file : FileInfo) : Option Path :=
  match mode with
  | .ByType =>
    some (base_path ++ [(classify file.extension).folder_name, file.name])
  | .ByDate =>
    let ymp := ml.ym file.modified
    some (base_path ++ [ymp.1, ymp.2, file.name])
  | .ByExtension =>
    let ext := file.extension.getD "no_extension"
    some (base_path ++ [toUpperStr ext, file.name])
  | .ByCamera =>
    if ml.exifSupported file.path then
      some (base_path ++
        [(ml.cameraFolder file.path).getD "Unknown Camera", file.name])
    else none
  | .ByDateTaken =>
    if ml.exifSupported file.path then
      match ml.dateTakenFolder file.path with
      | some comps => some (base_path ++ comps ++ [file.name])
      | none =>
        let ymp := ml.ym file.modified
        some (base_path ++ [ymp.1, ymp.2, file.name])
    else
      let ymp := ml.ym file.modified
      some (base_path ++ [ymp.1, ymp.2, file.name])

/-- `plan_moves`: compute each record's destination and plan a move unless
the file is already in the right place. -/
def plan_moves (ml : MetaLookup) (files : List FileInfo) (base_path : Path)
    (mode : OrganizeMode) : List PlannedMove :=
  match files with
  | [] => []
  | file :: rest =>
    match plan_dest ml base_path mode file with
    | none => plan_moves ml rest base_path mode
    | some destination =>
      if file.path ≠ destination then
        ⟨file.path, destination, file.size⟩ :: plan_moves ml rest base_path mode
      else
        plan_moves ml rest base_path mode

/-- Claim C7: `plan_moves` never emits a `PlannedMove` whose source equals
its destination, for every record list, base path, organize mode and
collaborator behavior. -/
theorem plan_moves_src_ne_dst :
    ∀ (ml : MetaLookup) (files : List FileInfo) (base_path : Path)
      (mode : OrganizeMode) (pm : PlannedMove),
      pm ∈ plan_moves ml files base_path mode → pm.src ≠ pm.dst := by
  intro ml files
  induction files with
  | nil => intro bp mode pm h; simp [plan_moves] at h
  | cons f rest ih =>
    intro bp mode pm h
    rw [plan_moves] at h
    cases hdest : plan_dest ml bp mode f with
    | none =>
      rw [hdest] at h
      exact ih bp mode pm h
    | some destination =>
      rw [hdest] at h
      simp only at h
      split at h
      · rename_i hne
        rcases List.mem_cons.mp h with rfl | h
        · exact hne
        · exact ih bp mode pm h
      · exact ih bp mode pm h

/-- A collaborator with no EXIF data and a fixed year/month. -/
def mlW : MetaLookup := ⟨fun _ => ("2024", "05"), fun _ => false,
  fun _ => none, fun _ => none⟩

/-- Concrete instance of claim C7: `organize --by-extension` on
`report.pdf` plans a move into `PDF/` whose source and destination
differ. -/
theorem plan_moves_src_ne_dst_witness :
    (⟨["report.pdf"], ["base", "PDF", "report.pdf"], 9⟩ : PlannedMove) ∈
      plan_moves mlW [⟨["report.pdf"], "report.pdf", some "pdf", 9, 0⟩]
        ["base"] .ByExtension ∧
    (["report.pdf"] : Path) ≠ ["base", "PDF", "report.pdf"] := by
  have hmem : (⟨["report.pdf"], ["base", "PDF", "report.pdf"], 9⟩ :
      PlannedMove) ∈
      plan_moves mlW [⟨["report.pdf"], "report.pdf", some "pdf", 9, 0⟩]
        ["base"] .ByExtension := by decide
  exact ⟨hmem, plan_moves_src_ne_dst mlW
    [⟨["report.pdf"], "report.pdf", some "pdf", 9, 0⟩] ["base"]
    .ByExtension _ hmem⟩

/-! ## Undo (`cmd_undo`, `src/main.rs`)

`cmd_undo` loads the history, pops the most recent batch, replays its
operations in reverse order, and saves the truncated history only when at
least one operation was actually restored. -/

/-- `fs::create_dir_all(parent).ok()` before the restoring rename: create
the source's parent directory, ignoring failure. -/
def ensureParentDir (w : World) (p : Path) : World :=
  match parentOf p with
  | none => w
  | some par =>
    if w.dirs.contains par then w
    else if w.dirFailures.contains par then w
    else { w with dirs := par :: w.dirs }

/-- Undo of one operation: a `Move` whose destination still exists is
renamed back (success counts as undone, failure as an error); a `Move`
whose destination is gone is silently skipped; a `Delete` cannot be undone
and counts as an error.  Returns (world, undone?, error?). -/
def undoOp (w : World) (op : FileOperation) : World × Bool × Bool :=
  match op.operation_type with
  | .Move =>
    if existsP w op.dst then
      let w1 := ensureParentDir w op.src
      match renameW w1 op.dst op.src with
      | some w2 => (w2, true, false)
      | none => (w1, false, true)
    else (w, false, false)
  | .Delete => (w, false, true)

/-- The undo loop over a list of operations (already reversed by the
caller), accumulating the `undone` and `errors` counters. -/
def undoLoop (w : World) : List FileOperation → World × Nat × Nat
  | [] => (w, 0, 0)
  | op :: rest =>
    let step := undoOp w op
    let rec_result := undoLoop step.1 rest
    (rec_result.1, (if step.2.1 then 1 else 0) + rec_result.2.1,
      (if step.2.2 then 1 else 0) + rec_result.2.2)

/-- The observable outcome of the undo command: the final filesystem, the
two reported counters, and the history that remains persisted. -/
structure UndoOutcome where
  world : World
  undone : Nat
  errors : Nat
  persisted : History
  deriving Repr, DecidableEq

/-- `cmd_undo`: pop the most recent batch, replay its operations in reverse
order, and persist the truncated history only when `undone > 0` (the
`none` arm of `pop_last` is unreachable after the emptiness check). -/
def cmd_undo (w : World) (hist : History) : UndoOutcome :=
  if hist.is_empty then ⟨w, 0, 0, hist⟩
  else
    match hist.pop_last with
    | (some batch, popped) =>
      let res := undoLoop w batch.operations.reverse
      ⟨res.1, res.2.1, res.2.2, if res.2.1 > 0 then popped else hist⟩
    | (none, _) => ⟨w, 0, 0, hist⟩

/-! ### Lookup characterizations used by the undo proofs -/

theorem lookupFile_filter (a b p : Path) :
    ∀ files : List (Path × Content),
      lookupFile (files.filter (fun e => e.1 ≠ a ∧ e.1 ≠ b)) p =
        if p = a ∨ p = b then none else lookupFile files p := by
  intro files
  induction files with
  | nil => simp [lookupFile]
  | cons e rest ih =>
    obtain ⟨q, c⟩ := e
    by_cases hq : q ≠ a ∧ q ≠ b
    · rw [List.filter_cons_of_pos (by simpa using hq)]
      by_cases hpq : q = p
      · subst hpq
        rw [lookupFile, if_pos rfl, lookupFile, if_pos rfl,
          if_neg (by tauto)]
      · rw [lookupFile, if_neg hpq, ih, lookupFile, if_neg hpq]
    · rw [List.filter_cons_of_neg (by simpa using hq)]
      have hab : q = a ∨ q = b := by tauto
      by_cases hpq : q = p
      · subst hpq
        rw [ih, lookupFile, if_pos rfl, if_pos hab, if_pos hab]
      · rw [ih, lookupFile, if_neg hpq]

theorem renameW_lookup (w : World) (a b : Path) (w2 : World)
    (h : renameW w a b = some w2) :
    ∀ p, lookupFile w2.files p =
      if p = b then lookupFile w.files a
      else if p = a then none
      else lookupFile w.files p := by
  unfold renameW at h
  split at h
  · cases h
  · cases hlook : lookupFile w.files a with
    | none => rw [hlook] at h; cases h
    | some c =>
      rw [hlook] at h
      injection h with h
      subst h
      intro p
      simp only
      by_cases hpb : p = b
      · subst hpb
        rw [lookupFile, if_pos rfl, if_pos rfl]
      · rw [lookupFile, if_neg (fun hc => hpb hc.symm),
          lookupFile_filter a b p, if_neg hpb]
        by_cases hpa : p = a
        · rw [if_pos (Or.inl hpa), if_pos hpa]
        · rw [if_neg (by tauto), if_neg hpa]

theorem renameW_some_src (w : World) (a b : Path) (w2 : World)
    (h : renameW w a b = some w2) :
    ∃ c, lookupFile w.files a = some c := by
  unfold renameW at h
  split at h
  · cases h
  · cases hlook : lookupFile w.files a with
    | none => rw [hlook] at h; cases h
    | some c => exact ⟨c, rfl⟩

theorem ensureParentDir_frame (w : World) (p : Path) :
    (ensureParentDir w p).files = w.files ∧
    (ensureParentDir w p).renameFailures = w.renameFailures ∧
    (ensureParentDir w p).dirFailures = w.dirFailures := by
  unfold ensureParentDir
  cases parentOf p with
  | none => exact ⟨rfl, rfl, rfl⟩
  | some par =>
    simp only
    split_ifs
    · exact ⟨rfl, rfl, rfl⟩
    · exact ⟨rfl, rfl, rfl⟩
    · exact ⟨rfl, rfl, rfl⟩

theorem existsP_false_lookup_none (w : World) (p : Path)
    (h : existsP w p = false) : lookupFile w.files p = none := by
  unfold existsP at h
  rcases Bool.or_eq_false_iff.mp h with ⟨h1, _⟩
  cases hl : lookupFile w.files p with
  | none => rfl
  | some c => rw [hl] at h1; simp at h1

theorem undoLoop_world_append :
    ∀ (l1 l2 : List FileOperation) (w : World),
      (undoLoop w (l1 ++ l2)).1 = (undoLoop (undoLoop w l1).1 l2).1 := by
  intro l1
  induction l1 with
  | nil => intro l2 w; rfl
  | cons op rest ih =>
    intro l2 w
    rw [List.cons_append, undoLoop, undoLoop]
    exact ih l2 (undoOp w op).1

/-! ### Undo inverts an executed batch (claim C2) -/

/-- Running the move loop on a benign world (no injected failures) and then
replaying the logged operations in reverse restores every file: the final
world's file map is pointwise the original one (and the failure sets stay
empty). -/
theorem execute_moves_go_undo :
    ∀ (moves : List PlannedMove) (w : World)
      (out : OrganizeResult × World × List FileOperation),
      w.renameFailures = [] → w.dirFailures = [] →
      execute_moves_go w moves = .ok out →
      (∀ p, lookupFile ((undoLoop out.2.1 out.2.2.reverse).1).files p =
        lookupFile w.files p) ∧
      (undoLoop out.2.1 out.2.2.reverse).1.renameFailures = [] ∧
      (undoLoop out.2.1 out.2.2.reverse).1.dirFailures = [] := by
  intro moves
  induction moves with
  | nil =>
    intro w out hrf hdf h
    rw [execute_moves_go] at h
    injection h with h
    subst h
    exact ⟨fun p => rfl, hrf, hdf⟩
  | cons mv rest ih =>
    intro w out hrf hdf h
    rw [execute_moves_go] at h
    cases hmk : mkParentDirs w mv.dst with
    | error e => rw [hmk] at h; cases h
    | ok w1 =>
      rw [hmk] at h
      simp only at h
      obtain ⟨hf1, hdf1, hrf1⟩ := mkParentDirs_ok w mv.dst w1 hmk
      cases hren : renameW w1 mv.src (resolve_conflict w1 mv.dst) with
      | some w2 =>
        rw [hren] at h
        simp only at h
        cases hrec : execute_moves_go w2 rest with
        | error e => rw [hrec] at h; cases h
        | ok out3 =>
          obtain ⟨r3, w3, ops3⟩ := out3
          rw [hrec] at h
          simp only at h
          injection h with h
          subst h
          obtain ⟨_, hdf2, hrf2⟩ := renameW_frame w1 mv.src _ w2 hren
          have hrf2' : w2.renameFailures = [] := by rw [hrf2, hrf1, hrf]
          have hdf2' : w2.dirFailures = [] := by rw [hdf2, hdf1, hdf]
          obtain ⟨ihlook, ihrf, ihdf⟩ := ih w2 (r3, w3, ops3) hrf2' hdf2' hrec
          simp only [List.reverse_cons]
          rw [undoLoop_world_append]
          set fd := resolve_conflict w1 mv.dst with hfd
          set u := (undoLoop w3 ops3.reverse).1 with hu
          obtain ⟨c0, hc0⟩ := renameW_some_src w1 mv.src fd w2 hren
          have hlookw2 := renameW_lookup w1 mv.src fd w2 hren
          have hfresh : existsP w1 fd = false := resolve_conflict_fresh w1 mv.dst
          have hfdnone : lookupFile w1.files fd = none :=
            existsP_false_lookup_none w1 fd hfresh
          have hnesrc : fd ≠ mv.src := by
            intro hc
            rw [hc] at hfdnone
            rw [hfdnone] at hc0
            cases hc0
          have hufd : lookupFile u.files fd = some c0 := by
            rw [ihlook fd, hlookw2 fd, if_pos rfl, hc0]
          have hex : existsP u fd = true := by
            unfold existsP
            rw [hufd]
            rfl
          obtain ⟨hu1f, hu1rf, hu1df⟩ := ensureParentDir_frame u mv.src
          have hu1fd : lookupFile (ensureParentDir u mv.src).files fd =
              some c0 := by rw [hu1f]; exact hufd
          have hren2 : renameW (ensureParentDir u mv.src) fd mv.src =
              some { ensureParentDir u mv.src with
                files := (mv.src, c0) ::
                  (ensureParentDir u mv.src).files.filter
                    (fun e => e.1 ≠ fd ∧ e.1 ≠ mv.src) } := by
            unfold renameW
            rw [if_neg (by rw [hu1rf, ihrf]; simp), hu1fd]
          have hstep : undoOp u ⟨mv.src, fd, .Move⟩ =
              ({ ensureParentDir u mv.src with
                files := (mv.src, c0) ::
                  (ensureParentDir u mv.src).files.filter
                    (fun e => e.1 ≠ fd ∧ e.1 ≠ mv.src) }, true, false) := by
            unfold undoOp
            simp only
            rw [if_pos hex, hren2]
          have hw2u := renameW_lookup (ensureParentDir u mv.src) fd mv.src _ hren2
          refine ⟨?_, ?_, ?_⟩
          · intro p
            show lookupFile ((undoLoop u [⟨mv.src, fd, .Move⟩]).1).files p =
              lookupFile w.files p
            rw [undoLoop, undoLoop]
            simp only [hstep]
            rw [hw2u p]
            by_cases hps : p = mv.src
            · subst hps
              rw [if_pos rfl, hu1f, hufd, ← hf1]
              exact hc0.symm
            · rw [if_neg hps]
              by_cases hpf : p = fd
              · subst hpf
                rw [if_pos rfl, ← hf1]
                exact hfdnone.symm
              · rw [if_neg hpf, hu1f, ihlook p, hlookw2 p, if_neg hpf,
                  if_neg hps, hf1]
          · show (undoLoop u [⟨mv.src, fd, .Move⟩]).1.renameFailures = []
            rw [undoLoop, undoLoop]
            simp only [hstep]
            rw [hu1rf, ihrf]
          · show (undoLoop u [⟨mv.src, fd, .Move⟩]).1.dirFailures = []
            rw [undoLoop, undoLoop]
            simp only [hstep]
            rw [hu1df, ihdf]
      | none =>
        rw [hren] at h
        simp only at h
        cases hrec : execute_moves_go w1 rest with
        | error e => rw [hrec] at h; cases h
        | ok out3 =>
          obtain ⟨r3, w3, ops3⟩ := out3
          rw [hrec] at h
          simp only at h
          injection h with h
          subst h
          have hrf1' : w1.renameFailures = [] := by rw [hrf1, hrf]
          have hdf1' : w1.dirFailures = [] := by rw [hdf1, hdf]
          obtain ⟨ihlook, ihrf, ihdf⟩ := ih w1 (r3, w3, ops3) hrf1' hdf1' hrec
          exact ⟨fun p => by rw [ihlook p, hf1], ihrf, ihdf⟩

/-- Claim C2: for a batch containing only Move operations (the only kind
`execute_moves` ever logs), executing on a benign filesystem (no injected
failures, i.e. no intervening conflicting writes) and then running the undo
command restores the original path set with the original contents: the file
map after undo is pointwise the original one. -/
theorem execute_then_undo_restores :
    ∀ (w : World) (now : Nat) (cmd : String) (moves : List PlannedMove)
      (r : OrganizeResult) (w' : World) (hist' : History),
      w.renameFailures = [] → w.dirFailures = [] →
      execute_moves w ⟨[]⟩ now cmd moves = .ok (r, w', hist') →
      ∀ p, lookupFile ((cmd_undo w' hist').world).files p =
        lookupFile w.files p := by
  intro w now cmd moves r w' hist' hrf hdf hexec p
  unfold execute_moves at hexec
  cases hgo : execute_moves_go w moves with
  | error e => rw [hgo] at hexec; cases hexec
  | ok out =>
    obtain ⟨r1, w1, ops1⟩ := out
    rw [hgo] at hexec
    simp only at hexec
    injection hexec with hexec
    simp only [Prod.mk.injEq] at hexec
    obtain ⟨hr, hw, hh⟩ := hexec
    subst hw
    subst hh
    obtain ⟨hlook, _, _⟩ :=
      execute_moves_go_undo moves w (r1, w1, ops1) hrf hdf hgo
    by_cases hops : ops1 = []
    · subst hops
      have hsave : Logger.save now cmd [] ⟨[]⟩ = (⟨[]⟩ : History) := by
        simp [Logger.save]
      rw [hsave]
      have hworld : (cmd_undo w1 ⟨[]⟩).world = w1 := rfl
      rw [hworld]
      exact hlook p
    · have hsave : Logger.save now cmd ops1 ⟨[]⟩ =
          (⟨[⟨now, cmd, ops1⟩]⟩ : History) := by
        unfold Logger.save History.add_batch
        rw [if_neg (by simpa [List.isEmpty_iff] using hops)]
        simp
      rw [hsave]
      have hworld : (cmd_undo w1 ⟨[⟨now, cmd, ops1⟩]⟩).world =
          (undoLoop w1 ops1.reverse).1 := by
        unfold cmd_undo History.is_empty History.pop_last
        simp
      rw [hworld]
      exact hlook p

/-- Fixture for the C2 witness: two files moved into `T/` and then undone. -/
def wC2 : World := ⟨[(["a"], [1]), (["b"], [2])], [], [], []⟩

def movesC2 : List PlannedMove := [⟨["a"], ["T", "a"], 1⟩, ⟨["b"], ["T", "b"], 2⟩]

/-- Concrete instance of claim C2: after executing two moves and undoing
them, both original paths hold their original contents and the moved-to
paths are gone. -/
theorem execute_then_undo_restores_witness :
    ∃ r w' hist',
      execute_moves wC2 ⟨[]⟩ 3 "organize --by-type" movesC2 =
        .ok (r, w', hist') ∧
      lookupFile ((cmd_undo w' hist').world).files ["a"] =
        lookupFile wC2.files ["a"] ∧
      lookupFile ((cmd_undo w' hist').world).files ["T", "a"] =
        lookupFile wC2.files ["T", "a"] ∧
      lookupFile wC2.files ["a"] = some [1] ∧
      lookupFile wC2.files ["T", "a"] = none := by
  have hexec : execute_moves wC2 ⟨[]⟩ 3 "organize --by-type" movesC2 =
      .ok (⟨2, 0, [], 3⟩,
        ⟨[(["T", "b"], [2]), (["T", "a"], [1])], [["T"]], [], []⟩,
        ⟨[⟨3, "organize --by-type",
          [⟨["a"], ["T", "a"], .Move⟩, ⟨["b"], ["T", "b"], .Move⟩]⟩]⟩) := by
    decide
  refine ⟨_, _, _, hexec, ?_, ?_, by decide, by decide⟩
  · exact execute_then_undo_restores wC2 3 "organize --by-type" movesC2
      _ _ _ rfl rfl hexec ["a"]
  · exact execute_then_undo_restores wC2 3 "organize --by-type" movesC2
      _ _ _ rfl rfl hexec ["T", "a"]

/-! ### Undo without restored moves does not save (claim C10) -/

theorem undoLoop_all_delete :
    ∀ (ops : List FileOperation) (w : World),
      (∀ op ∈ ops, op.operation_type = .Delete) →
      undoLoop w ops = (w, 0, ops.length) := by
  intro ops
  induction ops with
  | nil => intro w _; rfl
  | cons op rest ih =>
    intro w h
    have hop : op.operation_type = .Delete := h op (List.mem_cons_self _ _)
    have hstep : undoOp w op = (w, false, true) := by
      simp only [undoOp, hop]
    rw [undoLoop]
    simp only [hstep]
    rw [ih w (fun o ho => h o (List.mem_cons_of_mem _ ho))]
    simp [Nat.add_comm]

theorem undoLoop_all_missing :
    ∀ (ops : List FileOperation) (w : World),
      (∀ op ∈ ops, op.operation_type = .Move ∧ existsP w op.dst = false) →
      undoLoop w ops = (w, 0, 0) := by
  intro ops
  induction ops with
  | nil => intro w _; rfl
  | cons op rest ih =>
    intro w h
    obtain ⟨hop, hex⟩ := h op (List.mem_cons_self _ _)
    have hstep : undoOp w op = (w, false, false) := by
      simp only [undoOp, hop]
      rw [if_neg (by simp [hex])]
    rw [undoLoop]
    simp only [hstep]
    rw [ih w (fun o ho => h o (List.mem_cons_of_mem _ ho))]
    simp

/-- Claim C10 (amended): the undo command persists the truncated history
only when at least one Move was actually restored.  A batch of only Delete
operations yields one reported error per operation and no save; a batch of
Moves whose destinations no longer exist is silently skipped — zero errors
reported, not one per file — and likewise no save; in general, whenever
nothing was undone the popped batch remains in the persisted history. -/
theorem cmd_undo_no_restore_no_save :
    ∀ (w : World) (hist : History) (batch : OperationBatch),
      hist.batches.getLast? = some batch →
      ((∀ op ∈ batch.operations, op.operation_type = .Delete) →
        (cmd_undo w hist).undone = 0 ∧
        (cmd_undo w hist).errors = batch.operations.length ∧
        (cmd_undo w hist).persisted = hist) ∧
      ((∀ op ∈ batch.operations, op.operation_type = .Move ∧
          existsP w op.dst = false) →
        (cmd_undo w hist).undone = 0 ∧
        (cmd_undo w hist).errors = 0 ∧
        (cmd_undo w hist).persisted = hist) ∧
      ((cmd_undo w hist).undone = 0 → (cmd_undo w hist).persisted = hist) := by
  intro w hist batch hlast
  have hne : hist.batches ≠ [] := by
    intro hc
    rw [hc] at hlast
    cases hlast
  have hcmd : cmd_undo w hist =
      ⟨(undoLoop w batch.operations.reverse).1,
        (undoLoop w batch.operations.reverse).2.1,
        (undoLoop w batch.operations.reverse).2.2,
        if (undoLoop w batch.operations.reverse).2.1 > 0 then
          ⟨hist.batches.dropLast⟩ else hist⟩ := by
    unfold cmd_undo History.is_empty History.pop_last
    rw [if_neg (by simpa [List.isEmpty_iff] using hne), hlast]
  refine ⟨?_, ?_, ?_⟩
  · intro hdel
    have hloop := undoLoop_all_delete batch.operations.reverse w
      (fun op hop => hdel op (List.mem_reverse.mp hop))
    rw [hcmd]
    simp only [hloop, List.length_reverse]
    refine ⟨by simp, by simp, by simp⟩
  · intro hmiss
    have hloop := undoLoop_all_missing batch.operations.reverse w
      (fun op hop => hmiss op (List.mem_reverse.mp hop))
    rw [hcmd]
    simp only [hloop]
    refine ⟨by simp, by simp, by simp⟩
  · intro hz
    rw [hcmd] at hz ⊢
    simp only at hz
    simp only
    rw [if_neg (by omega)]

/-- Counterexample to claim C10 as stated: when the most recent batch's only
Move has a destination that no longer exists, `cmd_undo` does NOT report an
error — the operation is silently skipped (`errors = 0`); it does, as the
claim says, leave the batch in the persisted history. -/
theorem cmd_undo_missing_dest_reports_no_error :
    (cmd_undo ⟨[], [], [], []⟩
      ⟨[⟨5, "organize --by-type", [⟨["a"], ["b"], .Move⟩]⟩]⟩).errors = 0 ∧
    (cmd_undo ⟨[], [], [], []⟩
      ⟨[⟨5, "organize --by-type", [⟨["a"], ["b"], .Move⟩]⟩]⟩).undone = 0 ∧
    (cmd_undo ⟨[], [], [], []⟩
      ⟨[⟨5, "organize --by-type", [⟨["a"], ["b"], .Move⟩]⟩]⟩).persisted =
      ⟨[⟨5, "organize --by-type", [⟨["a"], ["b"], .Move⟩]⟩]⟩ := by
  decide

/-- Concrete instance of amended claim C10: undoing a batch holding a single
Delete reports one error, restores nothing, and leaves the batch in the
persisted history. -/
theorem cmd_undo_no_restore_no_save_witness :
    (cmd_undo ⟨[], [], [], []⟩
      ⟨[⟨3, "clean", [⟨["f"], [], .Delete⟩]⟩]⟩).undone = 0 ∧
    (cmd_undo ⟨[], [], [], []⟩
      ⟨[⟨3, "clean", [⟨["f"], [], .Delete⟩]⟩]⟩).errors = 1 ∧
    (cmd_undo ⟨[], [], [], []⟩
      ⟨[⟨3, "clean", [⟨["f"], [], .Delete⟩]⟩]⟩).persisted =
      ⟨[⟨3, "clean", [⟨["f"], [], .Delete⟩]⟩]⟩ := by
  have h := (cmd_undo_no_restore_no_save ⟨[], [], [], []⟩
    ⟨[⟨3, "clean", [⟨["f"], [], .Delete⟩]⟩]⟩
    ⟨3, "clean", [⟨["f"], [], .Delete⟩]⟩ (by decide)).1 (by decide)
  exact ⟨h.1, h.2.1, h.2.2⟩

end Neat
